/- Verification development for the connectome-analysis library
   (src/library/degree_distribution.py and src/library/modelling.py),
   shallowly embedded in Lean 4.

   Conventions: sparse matrices become total functions on Fin n (boolean
   matrices are Bool-valued, weighted ones ℚ-valued); Python floats are
   modelled by exact rationals; float NaN is modelled by Option ℚ or by
   explicit zero-denominator bookkeeping, as noted at each definition;
   raised exceptions become an Except value over an explicit error type. -/
import Mathlib

set_option linter.unusedVariables false

open Finset

/-- The direction argument of the degree based analyses in
degree_distribution.py: afferent selects column sums (m.sum(axis=0)),
efferent selects row sums (m.sum(axis=1)). -/
inductive Direction where
  | afferent : Direction
  | efferent : Direction
deriving DecidableEq, Repr

/-- A pandas Series of rationals: paired index and value lists. -/
structure PySeries where
  index : List ℚ
  values : List ℚ
deriving DecidableEq, Repr

/-- Per-node degree of a boolean adjacency matrix, as computed at the top of
gini_curve / rich_club_curve: row sums for efferent, column sums for
afferent (sums of a boolean matrix count the True entries). -/
def degree_of {n : ℕ} (m : Fin n → Fin n → Bool) : Direction → Fin n → ℕ
  | Direction.afferent, v => ((univ : Finset (Fin n)).filter (fun r => m r v)).card
  | Direction.efferent, v => ((univ : Finset (Fin n)).filter (fun c => m v c)).card

/-- degrees.max() over all nodes, as used by rich_club_curve to build
udegrees = np.arange(1, degrees.max() + 1). Finset.sup gives 0 for n = 0. -/
def deg_max {n : ℕ} (m : Fin n → Fin n → Bool) (d : Direction) : ℕ :=
  (univ : Finset (Fin n)).sup (degree_of m d)

/-- The node mask degrees >= i used by both counters inside rich_club_curve. -/
def rcc_nodes {n : ℕ} (m : Fin n → Fin n → Bool) (d : Direction) (t : ℕ) : Finset (Fin n) :=
  univ.filter (fun v => t ≤ degree_of m d v)

/-- edge_counter of rich_club_curve: (degrees >= i).sum() * ((degrees >= i).sum() - 1),
the number of potential edges. Truncated ℕ subtraction agrees with the Python
integer product, which is 0 whenever the mask selects 0 or 1 nodes. -/
def edge_counter {n : ℕ} (m : Fin n → Fin n → Bool) (d : Direction) (t : ℕ) : ℕ :=
  (rcc_nodes m d t).card * ((rcc_nodes m d t).card - 1)

/-- mat_counter of rich_club_curve: m[np.ix_(mask, mask)].sum(), the number of
True entries of the induced submatrix. -/
def mat_counter {n : ℕ} (m : Fin n → Fin n → Bool) (d : Direction) (t : ℕ) : ℕ :=
  ∑ r ∈ rcc_nodes m d t, ∑ c ∈ rcc_nodes m d t, (if m r c then 1 else 0)

/-- The curve value of rich_club_curve at one threshold:
mat_counter(i) / edge_counter(i) after the astype(float) cast. A zero
edge_counter yields NaN in numpy; ℚ division then gives the junk value 0, so
statements about undefined points refer to edge_counter itself. -/
def rcc_value {n : ℕ} (m : Fin n → Fin n → Bool) (d : Direction) (t : ℕ) : ℚ :=
  (mat_counter m d t : ℚ) / (edge_counter m d t : ℚ)

/-- rich_club_curve for a boolean matrix (the m.dtype == bool branch):
thresholds udegrees = 1 .. degrees.max(), curve value mat_counter / edge_counter.
The second Python argument nrn is kept in the signature although the body never
reads it. -/
def rich_club_curve {n : ℕ} {α : Type} (m : Fin n → Fin n → Bool) (nrn : α)
    (d : Direction) : PySeries :=
  ⟨(List.range (deg_max m d)).map (fun k => ((k + 1 : ℕ) : ℚ)),
   (List.range (deg_max m d)).map (fun k => rcc_value m d (k + 1))⟩

/-- The index of the series deg = M["row"].value_counts() (direction efferent,
resp. M["col"] for afferent) inside efficient_rich_club_curve: exactly the nodes
that occur in the COO row (resp. col) array, i.e. those of positive degree. -/
def erc_support {n : ℕ} (m : Fin n → Fin n → Bool) (d : Direction) : Finset (Fin n) :=
  univ.filter (fun v => 0 < degree_of m d v)

/-- deg.max() in efficient_rich_club_curve: the maximum of the value_counts
series, i.e. the maximum degree over erc_support. -/
def erc_deg_max {n : ℕ} (m : Fin n → Fin n → Bool) (d : Direction) : ℕ :=
  (erc_support m d).sup (degree_of m d)

/-- One entry of nrn_degree_distribution =
np.histogram(deg.values, bins=np.arange(deg.max() + 2))[0]: with unit-width
integer bins, bin k holds the number of support nodes of degree exactly k. -/
def erc_nrn_hist {n : ℕ} (m : Fin n → Fin n → Bool) (d : Direction) (k : ℕ) : ℕ :=
  ((erc_support m d).filter (fun v => degree_of m d v = k)).card

/-- The entry of nrn_cum_degrees = np.cumsum(nrn_degree_distribution[-1::-1])
aligned with threshold t by the reversed index degree_bins_rv: the histogram
mass of degrees from t up to deg.max(). -/
def erc_nrn_cum {n : ℕ} (m : Fin n → Fin n → Bool) (d : Direction) (t : ℕ) : ℕ :=
  ∑ k ∈ Finset.Icc t (erc_deg_max m d), erc_nrn_hist m d k

/-- nrn_cum_pairs = nrn_cum_degrees * (nrn_cum_degrees - 1), at threshold t. -/
def erc_nrn_pairs {n : ℕ} (m : Fin n → Fin n → Bool) (d : Direction) (t : ℕ) : ℕ :=
  erc_nrn_cum m d t * (erc_nrn_cum m d t - 1)

/-- The COO entry list of the boolean matrix: M.row / M.col hold the pairs
(row, col) of the stored True entries. -/
def erc_edges {n : ℕ} (m : Fin n → Fin n → Bool) : Finset (Fin n × Fin n) :=
  univ.filter (fun p => m p.1 p.2)

/-- con_degree of one stored entry: np.minimum(deg_arr[row], deg_arr[col]),
where deg_arr holds every node's degree (deg_arr is zero-initialised, so nodes
outside the value_counts index keep degree 0 = their true degree). -/
def erc_con_degree {n : ℕ} (m : Fin n → Fin n → Bool) (d : Direction)
    (p : Fin n × Fin n) : ℕ :=
  min (degree_of m d p.1) (degree_of m d p.2)

/-- One entry of np.histogram(con_degree, bins=degree_bins)[0]: the number of
stored entries whose con_degree is exactly k. -/
def erc_con_hist {n : ℕ} (m : Fin n → Fin n → Bool) (d : Direction) (k : ℕ) : ℕ :=
  ((erc_edges m).filter (fun p => erc_con_degree m d p = k)).card

/-- The entry of cum_degrees = np.cumsum(con_degree[-1::-1]) aligned with
threshold t: the number of stored entries of con_degree from t to deg.max(). -/
def erc_cum_edges {n : ℕ} (m : Fin n → Fin n → Bool) (d : Direction) (t : ℕ) : ℕ :=
  ∑ k ∈ Finset.Icc t (erc_deg_max m d), erc_con_hist m d k

/-- The value of the returned DataFrame cum_degrees / nrn_cum_pairs at
threshold t of the reversed index degree_bins_rv. -/
def erc_value {n : ℕ} (m : Fin n → Fin n → Bool) (d : Direction) (t : ℕ) : ℚ :=
  (erc_cum_edges m d t : ℚ) / (erc_nrn_pairs m d t : ℚ)

/-- efficient_rich_club_curve (directions afferent/efferent, default arguments
pre_calculated_richness=None and sparse_bin_set=False): the DataFrame of
cum_degrees / nrn_cum_pairs indexed by degree_bins_rv = deg.max(), ..., 1, 0. -/
def efficient_rich_club_curve {n : ℕ} (m : Fin n → Fin n → Bool) (d : Direction) : PySeries :=
  ⟨(List.range (erc_deg_max m d + 1)).map (fun k => ((erc_deg_max m d - k : ℕ) : ℚ)),
   (List.range (erc_deg_max m d + 1)).map (fun k => erc_value m d (erc_deg_max m d - k))⟩

/-- Per-node degree of a weighted (float) matrix, as computed at the top of
gini_curve: np.array(m.sum(axis=...)).flatten(), row sums for efferent and
column sums for afferent. -/
def gini_degree {n : ℕ} (m : Fin n → Fin n → ℚ) : Direction → Fin n → ℚ
  | Direction.afferent, v => ∑ r ∈ (univ : Finset (Fin n)), m r v
  | Direction.efferent, v => ∑ c ∈ (univ : Finset (Fin n)), m v c

/-- The degrees array of gini_curve as a list in node order. -/
def gini_degree_list {n : ℕ} (m : Fin n → Fin n → ℚ) (d : Direction) : List ℚ :=
  (List.finRange n).map (gini_degree m d)

/-- np.cumsum of a list of rationals. -/
def cumsum : List ℚ → List ℚ
  | [] => []
  | x :: xs => x :: (cumsum xs).map (fun y => x + y)

/-- np.linspace(0, 1, k): the points i / (k - 1) for i = 0, ..., k - 1. For
k = 1 numpy returns the single point 0, which agrees with ℚ division by 0. -/
def linspace01 (k : ℕ) : List ℚ :=
  (List.range k).map (fun i : ℕ => (i : ℚ) / ((k : ℚ) - 1))

/-- np.sum(np.diff(A) * (B[:-1] + B[1:]) / 2.0), the trapezoid rule exactly as
written in gini_coefficient and normalized_gini_coefficient. -/
def np_trapz (A B : List ℚ) : ℚ :=
  (List.zipWith (fun dA sB => dA * sB / 2)
    (List.zipWith (fun x y => y - x) A A.tail)
    (List.zipWith (fun x y => x + y) B B.tail)).sum

/-- np.flipud(sorted(degrees)): the degrees sorted ascending by Python sorted,
then reversed, i.e. sorted descending. -/
def gini_sorted {n : ℕ} (m : Fin n → Fin n → ℚ) (d : Direction) : List ℚ :=
  (List.insertionSort (fun x y => x ≤ y) (gini_degree_list m d)).reverse

/-- cs = np.cumsum(np.flipud(sorted(degrees))).astype(float) / np.sum(degrees):
cumulative shares of the degree mass, largest degrees first. -/
def gini_cs {n : ℕ} (m : Fin n → Fin n → ℚ) (d : Direction) : List ℚ :=
  (cumsum (gini_sorted m d)).map (fun x => x / (gini_degree_list m d).sum)

/-- gini_curve(m, nrn, direction) = pd.Series(cs, index=np.linspace(0, 1, len(cs))).
The required nrn argument is kept in the signature; the body never reads it. -/
def gini_curve {n : ℕ} {α : Type} (m : Fin n → Fin n → ℚ) (nrn : α) (d : Direction) :
    PySeries :=
  ⟨linspace01 (gini_cs m d).length, gini_cs m d⟩

/-- gini_coefficient(m, nrn, direction): the trapezoid integral of gini_curve
over its index. -/
def gini_coefficient {n : ℕ} {α : Type} (m : Fin n → Fin n → ℚ) (nrn : α)
    (d : Direction) : ℚ :=
  np_trapz (gini_curve m nrn d).index (gini_curve m nrn d).values

/-- m.nnz: the number of stored (nonzero) entries of the sparse matrix. -/
def nnz {n : ℕ} (m : Fin n → Fin n → ℚ) : ℕ :=
  ((univ : Finset (Fin n × Fin n)).filter (fun p => m p.1 p.2 ≠ 0)).card

/-- binom.pmf(x, N, P) = C(N, x) * P^x * (1 - P)^(N - x), exact in ℚ. -/
def binom_pmf (x N : ℕ) (P : ℚ) : ℚ :=
  (N.choose x : ℚ) * P ^ x * (1 - P) ^ (N - x)

/-- The closed-form expected Gini curve of the analytical control
(the function named with a leading underscore in the source): N is the node
count minus one (the same for both directions of a square matrix, mirroring the
shape[0]/shape[1] branches), C = shape * N, P = nnz / C, and the curve pairs
B = cumsum(p*x)/sum(p*x) indexed by A = cumsum(p)/p.sum() where p is the
binomial pmf over x = N, N-1, ..., 0. -/
def analytical_expected_gini_curve {n : ℕ} (m : Fin n → Fin n → ℚ)
    (d : Direction) : PySeries :=
  let N : ℕ := match d with
    | Direction.afferent => n - 1
    | Direction.efferent => n - 1
  let P : ℚ := (nnz m : ℚ) / ((n : ℚ) * (N : ℚ))
  let xs : List ℕ := (List.range (N + 1)).map (fun i => N - i)
  let p : List ℚ := xs.map (fun k => binom_pmf k N P)
  let px : List ℚ := List.zipWith (fun pk k => pk * (k : ℚ)) p (xs.map (fun k => (k : ℚ)))
  ⟨(cumsum p).map (fun y => y / p.sum), (cumsum px).map (fun y => y / px.sum)⟩

/-- normalized_gini_coefficient(m, nrn, direction) =
2 * (gini_coefficient - trapezoid integral of the analytical control curve).
The nrn argument is never read. -/
def normalized_gini_coefficient {n : ℕ} {α : Type} (m : Fin n → Fin n → ℚ) (nrn : α)
    (d : Direction) : ℚ :=
  2 * (gini_coefficient m nrn d -
    np_trapz (analytical_expected_gini_curve m d).index
      (analytical_expected_gini_curve m d).values)

/-- A 2-node perfectly regular example matrix: both off-diagonal edges present,
every node of afferent and efferent degree 1. -/
def ex2reg : Fin 2 → Fin 2 → ℚ := fun r c => if r = c then 0 else 1

/-- The 4-node boolean example matrix with edges 0→1, 0→2, 1→2, 2→3
(spec §8, example scenario). -/
def ex4 : Fin 4 → Fin 4 → Bool := fun r c =>
  ((r.val, c.val) = (0, 1)) || ((r.val, c.val) = (0, 2)) ||
  ((r.val, c.val) = (1, 2)) || ((r.val, c.val) = (2, 3))

/-- Per-row stored-entry count of a boolean matrix (the CSR slice length
b - a of generate_degree_based_control); equals the efferent degree. -/
def rowNNZ {n : ℕ} (m : Fin n → Fin n → Bool) (r : Fin n) : ℕ :=
  ((univ : Finset (Fin n)).filter (fun c => m r c)).card

/-- Per-column stored-entry count of a boolean matrix; equals the afferent
degree. -/
def colNNZ {n : ℕ} (m : Fin n → Fin n → Bool) (c : Fin n) : ℕ :=
  ((univ : Finset (Fin n)).filter (fun r => m r c)).card

/-- The random draws of generate_degree_based_control with direction efferent
made explicit. After M.tocsr() the loop variable col indexes M.indptr, which in
CSR format addresses ROWS, so each iteration overwrites one row slice
M.indices[a:b] with np.random.choice(idxx, b - a, p=p, replace=False):
a without-replacement draw of b - a distinct column indices, weighted by the
column means p_out with the entry at the current row index zeroed. A sampler is
valid when each row's draw has the slice length b - a = rowNNZ, has no
repeats (replace=False), and only uses indices of positive weight: different
from the row index and of positive column count. -/
def valid_sample {n : ℕ} (m : Fin n → Fin n → Bool) (sampler : Fin n → List (Fin n)) : Prop :=
  ∀ r : Fin n, (sampler r).length = rowNNZ m r ∧ (sampler r).Nodup ∧
    ∀ c ∈ sampler r, c ≠ r ∧ 0 < colNNZ m c

instance valid_sample_decidable {n : ℕ} (m : Fin n → Fin n → Bool)
    (sampler : Fin n → List (Fin n)) : Decidable (valid_sample m sampler) := by
  unfold valid_sample
  infer_instance

/-- generate_degree_based_control with direction efferent: each CSR row slice
keeps its extent (M.indptr is untouched) and its column indices are replaced by
the drawn ones, so row r of the output is connected exactly to sampler r. -/
def generate_degree_based_control {n : ℕ} (m : Fin n → Fin n → Bool)
    (sampler : Fin n → List (Fin n)) : Fin n → Fin n → Bool :=
  fun r c => decide (c ∈ sampler r)

/-- A 3-node example matrix with edges 0→2, 1→2, 2→0. -/
def ex3 : Fin 3 → Fin 3 → Bool := fun r c =>
  ((r.val, c.val) = (0, 2)) || ((r.val, c.val) = (1, 2)) || ((r.val, c.val) = (2, 0))

/-- One valid outcome of the random draws on ex3: row 0 draws column 2, rows 1
and 2 draw column 0 (each draw avoids the row index and has positive column
weight). -/
def ex3_sampler : Fin 3 → List (Fin 3) := fun r =>
  if r.val = 0 then [2] else if r.val = 1 then [0] else [0]

/-- np.sign: 1, -1 or 0. -/
def np_sign (x : ℚ) : ℚ := if 0 < x then 1 else if x < 0 then -1 else 0

/-- np.meshgrid(src_depths, tgt_depths, indexing='ij'):
X1[i, j] = src_depths[i] and X2[i, j] = tgt_depths[j]. -/
def np_meshgrid_ij {ns nt : ℕ} (src : Fin ns → ℚ) (tgt : Fin nt → ℚ) :
    (Fin ns → Fin nt → ℚ) × (Fin ns → Fin nt → ℚ) :=
  (fun i _ => src i, fun _ j => tgt j)

/-- compute_bip_matrix: np.sign of the NEGATED np.diff along the stacked
meshgrid axis, i.e. sign(-(X2 - X1)) entrywise. -/
def compute_bip_matrix {ns nt : ℕ} (src : Fin ns → ℚ) (tgt : Fin nt → ℚ) :
    Fin ns → Fin nt → ℚ :=
  fun i j =>
    np_sign (-((np_meshgrid_ij src tgt).2 i j - (np_meshgrid_ij src tgt).1 i j))

/-- compute_dist_matrix, parametrised by the raw pairwise distance matrix that
the external scipy call spt.distance_matrix(src_pos, tgt_pos) supplies (an
entrywise function of the two position tables, so a row restriction of the
positions restricts the rows of raw): entries equal to 0.0 are replaced by NaN
(None) to exclude autaptic pairs. -/
def compute_dist_matrix {ns nt : ℕ} (raw : Fin ns → Fin nt → ℚ) :
    Fin ns → Fin nt → Option ℚ :=
  fun i j => if raw i j = 0 then none else some (raw i j)

/-- Bin membership of extract_dependent_p_conn for value v in bin k:
lower <= v, and v < upper for every bin but the last, v <= upper for the last
bin (idx < num_bins - 1 selects the strict comparison; num_bins =
len(bins) - 1). A NaN value (None) fails both numpy comparisons and is never
selected; an out-of-range bin index selects nothing. -/
def binSel (bins : List ℚ) (k : ℕ) (v : Option ℚ) : Bool :=
  match v with
  | none => false
  | some x =>
    match bins.get? k, bins.get? (k + 1) with
    | some lo, some hi =>
      decide (lo ≤ x) && (if k < bins.length - 2 then decide (x < hi) else decide (x ≤ hi))
    | _, _ => false

/-- dep_sel of extract_dependent_p_conn: the running np.logical_and over the
D covariate dimensions. -/
def dep_sel {D ns nt : ℕ} (deps : Fin D → Fin ns → Fin nt → Option ℚ)
    (binsL : Fin D → List ℚ) (idx : Fin D → ℕ) (i : Fin ns) (j : Fin nt) : Bool :=
  (List.finRange D).all (fun dim => binSel (binsL dim) (idx dim) (deps dim i j))

/-- count_all of extract_dependent_p_conn at one bin combination:
np.sum(dep_sel). -/
def count_all {D ns nt : ℕ} (deps : Fin D → Fin ns → Fin nt → Option ℚ)
    (binsL : Fin D → List ℚ) (idx : Fin D → ℕ) : ℕ :=
  ((univ : Finset (Fin ns × Fin nt)).filter
    (fun p => dep_sel deps binsL idx p.1 p.2 = true)).card

/-- count_conn of extract_dependent_p_conn: np.sum(adj_matrix[sidx, tidx]),
the number of selected pairs that are connected. -/
def count_conn {D ns nt : ℕ} (adj : Fin ns → Fin nt → Bool)
    (deps : Fin D → Fin ns → Fin nt → Option ℚ)
    (binsL : Fin D → List ℚ) (idx : Fin D → ℕ) : ℕ :=
  ((univ : Finset (Fin ns × Fin nt)).filter
    (fun p => dep_sel deps binsL idx p.1 p.2 = true ∧ adj p.1 p.2 = true)).card

/-- p_conn = count_conn / count_all followed by p_conn[np.isnan(p_conn)] = 0.0.
Since count_conn <= count_all, a zero denominator forces a zero numerator, the
float quotient is the NaN of 0/0 (never inf), and that NaN is mapped to 0. -/
def p_conn {D ns nt : ℕ} (adj : Fin ns → Fin nt → Bool)
    (deps : Fin D → Fin ns → Fin nt → Option ℚ)
    (binsL : Fin D → List ℚ) (idx : Fin D → ℕ) : ℚ :=
  if count_all deps binsL idx = 0 then 0
  else (count_conn adj deps binsL idx : ℚ) / (count_all deps binsL idx : ℚ)

/-- dist_bins of extract_2nd_order: num_bins = ceil(max_range_um / bin_size_um)
and dist_bins = np.arange(0, num_bins + 1) * bin_size_um. -/
def dist_bins (bin_size max_range : ℚ) : List ℚ :=
  (List.range ((max_range / bin_size).ceil.toNat + 1)).map (fun i : ℕ => (i : ℚ) * bin_size)

/-- Full-matrix (N_split = 1) connection count of extract_2nd_order at distance
bin k: the single covariate is the NaN-masked distance matrix. -/
def extract_2nd_order_count_conn {N : ℕ} (adj : Fin N → Fin N → Bool)
    (raw : Fin N → Fin N → ℚ) (bins : List ℚ) (k : ℕ) : ℕ :=
  count_conn adj (fun _ : Fin 1 => compute_dist_matrix raw) (fun _ => bins) (fun _ => k)

/-- Full-matrix (N_split = 1) pair count of extract_2nd_order at distance
bin k. -/
def extract_2nd_order_count_all {N : ℕ} (raw : Fin N → Fin N → ℚ)
    (bins : List ℚ) (k : ℕ) : ℕ :=
  count_all (fun _ : Fin 1 => compute_dist_matrix raw) (fun _ => bins) (fun _ => k)

/-- The chunk length ceil(N / N_split) used by the row split of
extract_2nd_order: split_indices = np.split(np.arange(N), np.cumsum of
N_split - 1 copies of this value). -/
def chunk_size (N N_split : ℕ) : ℕ := (N + N_split - 1) / N_split

/-- Membership of row r in chunk c: the split points are the multiples of the
chunk length q clipped at N, and N <= q * N_split, so every chunk (the last one
included) holds exactly the rows with c*q <= r < (c+1)*q. -/
def in_chunk (q c : ℕ) {N : ℕ} (r : Fin N) : Prop :=
  c * q ≤ r.val ∧ r.val < (c + 1) * q

instance in_chunk_decidable (q c : ℕ) {N : ℕ} (r : Fin N) : Decidable (in_chunk q c r) := by
  unfold in_chunk
  infer_instance

/-- Connection count contributed by chunk c: the Python code runs
extract_dependent_p_conn on adj_matrix[split, :] and the distance matrix of
pos_table[split, :] against pos_table; re-indexing the chunk rows by their
global row numbers, these are exactly the pairs whose row lies in the chunk,
with the same covariate values (distance masking is entrywise). -/
def chunk_count_conn {N : ℕ} (adj : Fin N → Fin N → Bool) (raw : Fin N → Fin N → ℚ)
    (bins : List ℚ) (q c k : ℕ) : ℕ :=
  ((univ : Finset (Fin N × Fin N)).filter (fun p : Fin N × Fin N => in_chunk q c p.1 ∧
    dep_sel (fun _ : Fin 1 => compute_dist_matrix raw) (fun _ => bins) (fun _ => k)
      p.1 p.2 = true ∧ adj p.1 p.2 = true)).card

/-- Pair count contributed by chunk c. -/
def chunk_count_all {N : ℕ} (raw : Fin N → Fin N → ℚ) (bins : List ℚ) (q c k : ℕ) : ℕ :=
  ((univ : Finset (Fin N × Fin N)).filter (fun p : Fin N × Fin N => in_chunk q c p.1 ∧
    dep_sel (fun _ : Fin 1 => compute_dist_matrix raw) (fun _ => bins) (fun _ => k)
      p.1 p.2 = true)).card

/-- Chunked connection counts of extract_2nd_order: count_conn += per-chunk
counts, accumulated over the N_split chunks. -/
def extract_2nd_order_split_count_conn {N : ℕ} (adj : Fin N → Fin N → Bool)
    (raw : Fin N → Fin N → ℚ) (bins : List ℚ) (N_split k : ℕ) : ℕ :=
  ∑ c ∈ Finset.range N_split, chunk_count_conn adj raw bins (chunk_size N N_split) c k

/-- Chunked pair counts of extract_2nd_order. -/
def extract_2nd_order_split_count_all {N : ℕ} (raw : Fin N → Fin N → ℚ)
    (bins : List ℚ) (N_split k : ℕ) : ℕ :=
  ∑ c ∈ Finset.range N_split, chunk_count_all raw bins (chunk_size N N_split) c k

/-- Python exception values raised by (or crashing) the analysed functions. -/
inductive PyErr where
  | assertionError : String → PyErr
  | exception : String → PyErr
  | nameError : String → PyErr
  | valueError : PyErr
deriving DecidableEq, Repr

/-- The costly computations normalized_rich_club_curve completes, in execution
order, on the way to its result; used to state at which point an error is
detected. -/
inductive Step where
  | observedCurve : Step
  | analyticalControl : Step
  | shuffledControl : Step
deriving DecidableEq, Repr

/-- A control-curve DataFrame with mean and std columns. -/
structure CtrlCurve where
  index : List ℚ
  mean : List ℚ
  std : List ℚ
deriving DecidableEq, Repr

/-- scipy.stats hypergeom.stats(M, n, N) mean: N * n / M. Divisions whose
float value would be NaN take the ℚ junk value 0; no claim depends on them. -/
def hypergeom_mean (M nsucc Ndraw : ℚ) : ℚ := Ndraw * nsucc / M

/-- scipy.stats hypergeom.stats(M, n, N) variance:
(N * n / M) * ((M - n) / M) * ((M - N) / (M - 1)). -/
def hypergeom_var (M nsucc Ndraw : ℚ) : ℚ :=
  Ndraw * nsucc / M * ((M - nsucc) / M) * ((M - Ndraw) / (M - 1))

/-- Per-threshold mean of the analytical rich-club control: over the valid
nodes (degrees >= deg), the hypergeom means of
(indegree.sum() - i_v, i_v summed over valid - i_v, outdegree of v), summed
and divided by edge_counter. -/
def arc_mean_at {n : ℕ} (m : Fin n → Fin n → Bool) (d : Direction) (t : ℕ) : ℚ :=
  (∑ v ∈ rcc_nodes m d t,
    hypergeom_mean
      ((∑ w ∈ (univ : Finset (Fin n)), (degree_of m Direction.afferent w : ℚ)) -
        (degree_of m Direction.afferent v : ℚ))
      ((∑ w ∈ rcc_nodes m d t, (degree_of m Direction.afferent w : ℚ)) -
        (degree_of m Direction.afferent v : ℚ))
      (degree_of m Direction.efferent v : ℚ)) / (edge_counter m d t : ℚ)

/-- Per-threshold std of the analytical control: the square root of the summed
variances, divided by edge_counter. np.sqrt is an irrational operation and is
taken as the function parameter sqrtQ; no claim depends on its values. -/
def arc_std_at {n : ℕ} (sqrtQ : ℚ → ℚ) (m : Fin n → Fin n → Bool) (d : Direction)
    (t : ℕ) : ℚ :=
  sqrtQ (∑ v ∈ rcc_nodes m d t,
    hypergeom_var
      ((∑ w ∈ (univ : Finset (Fin n)), (degree_of m Direction.afferent w : ℚ)) -
        (degree_of m Direction.afferent v : ℚ))
      ((∑ w ∈ rcc_nodes m d t, (degree_of m Direction.afferent w : ℚ)) -
        (degree_of m Direction.afferent v : ℚ))
      (degree_of m Direction.efferent v : ℚ)) / (edge_counter m d t : ℚ)

/-- The analytical expected rich-club curve (the assert on a boolean dtype
holds because the embedded matrix is Bool-valued): mean and std per threshold
udegrees = 1 .. degrees.max(). -/
def analytical_expected_rich_club_curve {n : ℕ} (m : Fin n → Fin n → Bool)
    (d : Direction) (sqrtQ : ℚ → ℚ) : CtrlCurve :=
  ⟨(List.range (deg_max m d)).map (fun k => ((k + 1 : ℕ) : ℚ)),
   (List.range (deg_max m d)).map (fun k => arc_mean_at m d (k + 1)),
   (List.range (deg_max m d)).map (fun k => arc_std_at sqrtQ m d (k + 1))⟩

/-- The randomized ("shuffled") control with a leading underscore in the
source: its loop collects nrep curves
efficient_rich_club_curve(generate_degree_based_control(m)) into the local
variable res (the random draws enter through samplers), but the next statement
evaluates np.nanmean(rr, axis=1) where rr is an undefined name — the source
means res — so every call raises NameError('rr') before returning. -/
def randomized_control_rich_club_curve {n : ℕ} (m : Fin n → Fin n → Bool)
    (d : Direction) (samplers : ℕ → Fin n → List (Fin n)) (nrep : ℕ := 10) :
    Except PyErr CtrlCurve :=
  Except.error (PyErr.nameError "rr")

/-- The tail of normalized_rich_club_curve once a control curve exists:
normalize='mean' divides the observed values B[:len(mn_r)] elementwise by the
control mean; 'std' computes the z-score (B[:len(mn_r)] - mn_r) / sd_r; any
other value raises Exception('Unknown normalization: ...'). The index is
truncated to the common length A[:len(mn_r)]. -/
def nrc_normalize (A B : List ℚ) (ctrl : CtrlCurve) (normalize : String) :
    Except PyErr PySeries :=
  if normalize = "mean" then
    Except.ok ⟨A.take ctrl.mean.length,
      List.zipWith (fun b c => b / c) (B.take ctrl.mean.length) ctrl.mean⟩
  else if normalize = "std" then
    Except.ok ⟨A.take ctrl.mean.length,
      List.zipWith (fun bc s => bc / s)
        (List.zipWith (fun b c => b - c) (B.take ctrl.mean.length) ctrl.mean) ctrl.std⟩
  else
    Except.error (PyErr.exception (String.append "Unknown normalization: " normalize))

/-- normalized_rich_club_curve. The assert on m.dtype == bool passes for the
Bool-valued embedded matrix. The observed curve is computed first in every
case; with normalize_with='analytical' the analytical control is computed next
and the normalize branch runs; with 'shuffled' the control computation itself
raises NameError('rr'); any other normalize_with leaves ctrl unbound, so the
following line Ar = ctrl.index.values raises NameError('ctrl'). The list of
completed costly computations is returned alongside the result. -/
def normalized_rich_club_curve {n : ℕ} {α : Type} (m : Fin n → Fin n → Bool) (nrn : α)
    (d : Direction) (normalize : String) (normalize_with : String) (sqrtQ : ℚ → ℚ)
    (samplers : ℕ → Fin n → List (Fin n)) : List Step × Except PyErr PySeries :=
  let data := rich_club_curve m nrn d
  if normalize_with = "analytical" then
    let ctrl := analytical_expected_rich_club_curve m d sqrtQ
    ([Step.observedCurve, Step.analyticalControl],
      nrc_normalize data.index data.values ctrl normalize)
  else if normalize_with = "shuffled" then
    match randomized_control_rich_club_curve m d samplers 10 with
    | Except.error e => ([Step.observedCurve], Except.error e)
    | Except.ok ctrl =>
      ([Step.observedCurve, Step.shuffledControl],
        nrc_normalize data.index data.values ctrl normalize)
  else
    ([Step.observedCurve], Except.error (PyErr.nameError "ctrl"))

/-- Modelled from the spec: §7 calls the errors for unsupported
direction / normalize / normalizeWith enum values "invalid-argument" errors;
in the source these are the explicitly raised Exception('Unknown ...') and
ValueError(). An AssertionError is a precondition failure and a NameError is
an unbound-name crash, not an argument check. -/
def isInvalidArgError : PyErr → Bool
  | PyErr.exception _ => true
  | PyErr.valueError => true
  | _ => false

/-- Claim C4, counterexample: on the 4-node example matrix with direction
efferent, the rich-club curve value at threshold 1 is mat_counter/edge_counter
= 3/6 = 1/2 — the induced subgraph on nodes {0,1,2} contains three edges
(0→1, 0→2 and 1→2), not two — so it is not 0.333… = 1/3 as the claim states. -/
theorem C4_counterexample :
    (mat_counter ex4 Direction.efferent 1 : ℚ) / (edge_counter ex4 Direction.efferent 1 : ℚ) ≠
      1 / 3 := by
  have h1 : mat_counter ex4 Direction.efferent 1 = 3 := by decide
  have h2 : edge_counter ex4 Direction.efferent 1 = 6 := by decide
  rw [h1, h2]
  norm_num

/-- Claim C4 (amended): on the 4-node example with direction efferent, the
thresholds are 1 and 2; at threshold 1 the curve value is 3 induced edges over
6 potential pairs = 1/2; at threshold 2 the rich club is {0} alone, so both
counters vanish and the float curve value is NaN/undefined (denominator
edge_counter = 0). The first curve entry of rich_club_curve equals 1/2. -/
theorem C4_amended :
    mat_counter ex4 Direction.efferent 1 = 3 ∧
    edge_counter ex4 Direction.efferent 1 = 6 ∧
    (mat_counter ex4 Direction.efferent 1 : ℚ) / (edge_counter ex4 Direction.efferent 1 : ℚ) =
      1 / 2 ∧
    mat_counter ex4 Direction.efferent 2 = 0 ∧
    edge_counter ex4 Direction.efferent 2 = 0 ∧
    deg_max ex4 Direction.efferent = 2 ∧
    (rich_club_curve ex4 () Direction.efferent).values.head? = some (1 / 2) := by
  have h1 : mat_counter ex4 Direction.efferent 1 = 3 := by decide
  have h2 : edge_counter ex4 Direction.efferent 1 = 6 := by decide
  have h3 : mat_counter ex4 Direction.efferent 2 = 0 := by decide
  have h4 : edge_counter ex4 Direction.efferent 2 = 0 := by decide
  have h5 : deg_max ex4 Direction.efferent = 2 := by decide
  have hr : List.range 2 = [0, 1] := by decide
  refine ⟨h1, h2, ?_, h3, h4, h5, ?_⟩
  · rw [h1, h2]; norm_num
  · simp only [rich_club_curve, h5, hr, List.map_cons, List.map_nil, List.head?_cons, rcc_value]
    norm_num [h1, h2]

/-- Every node's degree is bounded by degrees.max(). -/
theorem degree_le_deg_max {n : ℕ} (m : Fin n → Fin n → Bool) (d : Direction) (v : Fin n) :
    degree_of m d v ≤ deg_max m d :=
  Finset.le_sup (mem_univ v)

/-- deg.max() of the value_counts series agrees with degrees.max() over all
nodes: dropping zero-degree nodes never drops the maximum. -/
theorem erc_deg_max_eq {n : ℕ} (m : Fin n → Fin n → Bool) (d : Direction) :
    erc_deg_max m d = deg_max m d := by
  apply le_antisymm
  · exact Finset.sup_mono (Finset.filter_subset _ _)
  · apply Finset.sup_le
    intro v _
    rcases Nat.eq_zero_or_pos (degree_of m d v) with h | h
    · rw [h]; exact Nat.zero_le _
    · exact Finset.le_sup (by simp [erc_support, h])

/-- Reversed-cumulative histogram counting: summing unit-width histogram bins
from t up to a bound M dominating f on s counts the elements with f at least t.
This is the np.cumsum(histogram[-1::-1]) step of efficient_rich_club_curve. -/
theorem sum_card_filter_Icc {β : Type} [DecidableEq β] (s : Finset β) (f : β → ℕ) (t M : ℕ)
    (hf : ∀ x ∈ s, f x ≤ M) :
    ∑ k ∈ Finset.Icc t M, (s.filter (fun x => f x = k)).card =
      (s.filter (fun x => t ≤ f x)).card := by
  have H : ∀ x ∈ s.filter (fun x => t ≤ f x), f x ∈ Finset.Icc t M := by
    intro x hx
    rw [Finset.mem_filter] at hx
    exact Finset.mem_Icc.mpr ⟨hx.2, hf x hx.1⟩
  rw [Finset.card_eq_sum_card_fiberwise H]
  apply Finset.sum_congr rfl
  intro k hk
  rw [Finset.mem_Icc] at hk
  congr 1
  ext x
  simp only [Finset.mem_filter]
  constructor
  · rintro ⟨hs, hfk⟩
    exact ⟨⟨hs, by omega⟩, hfk⟩
  · rintro ⟨⟨hs, hts⟩, hfk⟩
    exact ⟨hs, hfk⟩

/-- mat_counter is the number of stored entries of the induced submatrix. -/
theorem mat_counter_eq_card {n : ℕ} (m : Fin n → Fin n → Bool) (d : Direction) (t : ℕ) :
    mat_counter m d t =
      ((rcc_nodes m d t ×ˢ rcc_nodes m d t).filter (fun p => m p.1 p.2)).card := by
  rw [Finset.card_filter, Finset.sum_product]
  rfl

/-- Each stored entry has con_degree at most deg.max(): the endpoint whose
degree realises the minimum is dominated by the endpoint counted in the
value_counts support. -/
theorem erc_con_degree_le {n : ℕ} (m : Fin n → Fin n → Bool) (d : Direction)
    (p : Fin n × Fin n) (hp : p ∈ erc_edges m) :
    erc_con_degree m d p ≤ erc_deg_max m d := by
  rw [erc_edges, Finset.mem_filter] at hp
  cases d with
  | efferent =>
    have h1 : 0 < degree_of m Direction.efferent p.1 := by
      simp only [degree_of]
      exact Finset.card_pos.mpr ⟨p.2, by simp [hp.2]⟩
    calc erc_con_degree m Direction.efferent p ≤ degree_of m Direction.efferent p.1 :=
          min_le_left _ _
      _ ≤ erc_deg_max m Direction.efferent := Finset.le_sup (by simp [erc_support, h1])
  | afferent =>
    have h1 : 0 < degree_of m Direction.afferent p.2 := by
      simp only [degree_of]
      exact Finset.card_pos.mpr ⟨p.1, by simp [hp.2]⟩
    calc erc_con_degree m Direction.afferent p ≤ degree_of m Direction.afferent p.2 :=
          min_le_right _ _
      _ ≤ erc_deg_max m Direction.afferent := Finset.le_sup (by simp [erc_support, h1])

/-- The cumulative edge histogram at threshold t counts exactly the entries of
the induced submatrix of rich_club_curve: an edge lies inside the induced
subgraph on nodes of degree at least t iff its con_degree is at least t. -/
theorem erc_cum_edges_eq {n : ℕ} (m : Fin n → Fin n → Bool) (d : Direction) (t : ℕ) :
    erc_cum_edges m d t = mat_counter m d t := by
  rw [erc_cum_edges]
  have h := sum_card_filter_Icc (erc_edges m) (erc_con_degree m d) t (erc_deg_max m d)
    (fun p hp => erc_con_degree_le m d p hp)
  simp only [erc_con_hist]
  rw [h, mat_counter_eq_card]
  congr 1
  ext p
  simp only [erc_edges, erc_con_degree, rcc_nodes, Finset.mem_filter, Finset.mem_product,
    Finset.mem_univ, true_and, le_min_iff]
  tauto

/-- The cumulative node histogram at a positive threshold t counts exactly the
nodes selected by the degrees >= t mask of rich_club_curve. -/
theorem erc_nrn_cum_eq {n : ℕ} (m : Fin n → Fin n → Bool) (d : Direction) (t : ℕ)
    (ht : 1 ≤ t) :
    erc_nrn_cum m d t = (rcc_nodes m d t).card := by
  rw [erc_nrn_cum]
  have h := sum_card_filter_Icc (erc_support m d) (degree_of m d) t (erc_deg_max m d)
    (fun v hv => Finset.le_sup hv)
  simp only [erc_nrn_hist]
  rw [h]
  congr 1
  ext v
  simp only [erc_support, rcc_nodes, Finset.mem_filter, Finset.mem_univ, true_and]
  omega

/-- Claim C1: for every boolean square adjacency matrix and direction in
{afferent, efferent}, the naive rich_club_curve and efficient_rich_club_curve
compute the same quantity: the two threshold domains coincide
(deg.max() = degrees.max()), and at every threshold t present in both outputs
(1 ≤ t ≤ degrees.max()) the edge numerators, the potential-pair denominators
and hence the curve values agree exactly (so in particular within
floating-point tolerance). -/
theorem rich_club_curve_eq_efficient {n : ℕ} (m : Fin n → Fin n → Bool) (d : Direction)
    (t : ℕ) (ht : 1 ≤ t) (htmax : t ≤ deg_max m d) :
    erc_deg_max m d = deg_max m d ∧
    mat_counter m d t = erc_cum_edges m d t ∧
    edge_counter m d t = erc_nrn_pairs m d t ∧
    rcc_value m d t = erc_value m d t := by
  have h1 := erc_deg_max_eq m d
  have h2 := (erc_cum_edges_eq m d t).symm
  have h3 : edge_counter m d t = erc_nrn_pairs m d t := by
    rw [edge_counter, erc_nrn_pairs, erc_nrn_cum_eq m d t ht]
  refine ⟨h1, h2, h3, ?_⟩
  rw [rcc_value, erc_value, h2, h3]

/-- Witness for C1: the 4-node example matrix, direction efferent, threshold 1. -/
theorem rich_club_curve_eq_efficient_witness :
    (1 ≤ deg_max ex4 Direction.efferent) ∧
    rcc_value ex4 Direction.efferent 1 = erc_value ex4 Direction.efferent 1 :=
  ⟨by decide,
   (rich_club_curve_eq_efficient ex4 Direction.efferent 1 (le_refl 1) (by decide)).2.2.2⟩

/-- cumsum preserves length. -/
theorem cumsum_length (l : List ℚ) : (cumsum l).length = l.length := by
  induction l with
  | nil => rfl
  | cons x xs ih => simp [cumsum, ih]

/-- cumsum expressed pointwise: entry k holds the sum of the first k + 1
elements. -/
theorem cumsum_eq_map_take (l : List ℚ) :
    cumsum l = (List.range l.length).map (fun k => (l.take (k + 1)).sum) := by
  induction l with
  | nil => rfl
  | cons x xs ih =>
    simp only [cumsum, ih, List.length_cons, List.range_succ_eq_map, List.map_cons,
      List.map_map, List.take_succ_cons, List.sum_cons, List.take_zero, List.sum_nil,
      add_zero, Function.comp]
    have hfg : ((fun y => x + y) ∘ fun k => (List.take (k + 1) xs).sum) =
        ((fun k => x + (List.take k xs).sum) ∘ Nat.succ) := by
      funext k
      simp [Function.comp, Nat.succ_eq_add_one]
    rw [hfg]

/-- Zipping a function over a range map and its shift by one. -/
theorem zipWith_shift_range' (f : ℚ → ℚ → ℚ) (g : ℕ → ℚ) :
    ∀ (j s : ℕ),
      List.zipWith f ((List.range' s (j + 1)).map g) ((List.range' (s + 1) j).map g) =
        (List.range' s j).map (fun k => f (g k) (g (k + 1))) := by
  intro j
  induction j with
  | zero => intro s; simp
  | succ j ih =>
    intro s
    rw [List.range'_succ s (j + 1) 1]
    rw [List.range'_succ (s + 1) j 1]
    simp only [List.map_cons, List.zipWith_cons_cons]
    rw [List.range'_succ s j 1, List.map_cons]
    exact congrArg (List.cons (f (g s) (g (s + 1)))) (ih (s + 1))

/-- Zipping a function over two maps of the same range. -/
theorem zipWith_same_range' (f : ℚ → ℚ → ℚ) (g1 g2 : ℕ → ℚ) :
    ∀ (j s : ℕ),
      List.zipWith f ((List.range' s j).map g1) ((List.range' s j).map g2) =
        (List.range' s j).map (fun k => f (g1 k) (g2 k)) := by
  intro j
  induction j with
  | zero => intro s; simp
  | succ j ih =>
    intro s
    rw [List.range'_succ s j 1]
    simp only [List.map_cons, List.zipWith_cons_cons]
    exact congrArg (List.cons (f (g1 s) (g2 s))) (ih (s + 1))

/-- The sum of a mapped range as a Finset sum. -/
theorem list_sum_map_range (f : ℕ → ℚ) (j : ℕ) :
    ((List.range j).map f).sum = ∑ k ∈ Finset.range j, f k := by
  induction j with
  | zero => rfl
  | succ j ih =>
    rw [List.range_succ j, List.map_append, List.sum_append, Finset.sum_range_succ, ih]
    simp

/-- The trapezoid rule over two equal-length mapped ranges, as a closed sum. -/
theorem np_trapz_map_range (gA gB : ℕ → ℚ) (j : ℕ) :
    np_trapz ((List.range (j + 1)).map gA) ((List.range (j + 1)).map gB) =
      ∑ k ∈ Finset.range j, (gA (k + 1) - gA k) * (gB k + gB (k + 1)) / 2 := by
  have htail : (List.range (j + 1)).tail = List.range' 1 j := by
    rw [List.range_eq_range' (j + 1), List.range'_succ 0 j 1, List.tail_cons]
  have hzipA : List.zipWith (fun x y => y - x) ((List.range (j + 1)).map gA)
      (((List.range (j + 1)).map gA).tail) =
      (List.range' 0 j).map (fun k => gA (k + 1) - gA k) := by
    rw [← List.map_tail gA, htail, List.range_eq_range' (j + 1)]
    exact zipWith_shift_range' (fun x y => y - x) gA j 0
  have hzipB : List.zipWith (fun x y => x + y) ((List.range (j + 1)).map gB)
      (((List.range (j + 1)).map gB).tail) =
      (List.range' 0 j).map (fun k => gB k + gB (k + 1)) := by
    rw [← List.map_tail gB, htail, List.range_eq_range' (j + 1)]
    exact zipWith_shift_range' (fun x y => x + y) gB j 0
  rw [np_trapz, hzipA, hzipB, zipWith_same_range' (fun dA sB => dA * sB / 2) _ _ j 0,
    ← List.range_eq_range' j, list_sum_map_range]

/-- The sorted degree list is a permutation of the degree list. -/
theorem gini_sorted_perm {n : ℕ} (m : Fin n → Fin n → ℚ) (d : Direction) :
    (gini_sorted m d).Perm (gini_degree_list m d) :=
  (List.reverse_perm _).trans (List.perm_insertionSort _ _)

/-- Sorting and reversing preserves the list length n. -/
theorem gini_sorted_length {n : ℕ} (m : Fin n → Fin n → ℚ) (d : Direction) :
    (gini_sorted m d).length = n := by
  rw [(gini_sorted_perm m d).length_eq, gini_degree_list, List.length_map,
    List.length_finRange]

/-- np.sum(degrees) equals the sum of the sorted degrees. -/
theorem gini_sorted_sum {n : ℕ} (m : Fin n → Fin n → ℚ) (d : Direction) :
    (gini_sorted m d).sum = (gini_degree_list m d).sum :=
  (gini_sorted_perm m d).sum_eq

/-- The normalized cumulative shares written pointwise over the node ranks. -/
theorem gini_cs_eq_map {n : ℕ} (m : Fin n → Fin n → ℚ) (d : Direction) :
    gini_cs m d = (List.range n).map
      (fun k => ((gini_sorted m d).take (k + 1)).sum / (gini_degree_list m d).sum) := by
  rw [gini_cs, cumsum_eq_map_take, gini_sorted_length, List.map_map]
  rfl

/-- gini_cs has one entry per node. -/
theorem gini_cs_length {n : ℕ} (m : Fin n → Fin n → ℚ) (d : Direction) :
    (gini_cs m d).length = n := by
  rw [gini_cs_eq_map, List.length_map, List.length_range]

/-- gini_coefficient written as the closed trapezoid sum over node ranks. -/
theorem gini_coefficient_eq_sum {n : ℕ} {α : Type} (m : Fin (n + 1) → Fin (n + 1) → ℚ)
    (nrn : α) (d : Direction) :
    gini_coefficient m nrn d =
      ∑ k ∈ Finset.range n,
        ((((k + 1 : ℕ) : ℚ) / (((n + 1 : ℕ) : ℚ) - 1) - ((k : ℕ) : ℚ) / (((n + 1 : ℕ) : ℚ) - 1)) *
          (((gini_sorted m d).take (k + 1)).sum / (gini_degree_list m d).sum +
           ((gini_sorted m d).take (k + 1 + 1)).sum / (gini_degree_list m d).sum) / 2) := by
  rw [gini_coefficient]
  show np_trapz (linspace01 (gini_cs m d).length) (gini_cs m d) = _
  rw [gini_cs_length, gini_cs_eq_map, linspace01]
  rw [np_trapz_map_range]

/-- Inserting an element into a constant run of itself keeps the run. -/
theorem orderedInsert_le_replicate (x : ℚ) (j : ℕ) :
    List.orderedInsert (fun a b => a ≤ b) x (List.replicate j x) =
      List.replicate (j + 1) x := by
  cases j with
  | zero => rfl
  | succ j => simp [List.replicate_succ, List.orderedInsert, le_refl]

/-- Sorting a constant list is the identity. -/
theorem insertionSort_le_replicate (j : ℕ) (x : ℚ) :
    List.insertionSort (fun a b => a ≤ b) (List.replicate j x) = List.replicate j x := by
  induction j with
  | zero => rfl
  | succ j ih =>
    rw [List.replicate_succ, List.insertionSort, ih, orderedInsert_le_replicate]
    rw [List.replicate_succ]

/-- Gauss-style sum for the regular-graph trapezoid computation. -/
theorem sum_two_k_three (j : ℕ) :
    ∑ k ∈ Finset.range j, (2 * (k : ℚ) + 3) = (j : ℚ) * ((j : ℚ) + 2) := by
  induction j with
  | zero => simp
  | succ j ih =>
    rw [Finset.sum_range_succ, ih]
    push_cast
    ring

/-- Degrees of a matrix with nonnegative entries are nonnegative. -/
theorem gini_degree_nonneg {n : ℕ} (m : Fin n → Fin n → ℚ) (d : Direction)
    (hm : ∀ i j, 0 ≤ m i j) (v : Fin n) : 0 ≤ gini_degree m d v := by
  cases d with
  | afferent => exact Finset.sum_nonneg (fun r _ => hm r v)
  | efferent => exact Finset.sum_nonneg (fun c _ => hm v c)

/-- Sorted degrees of a matrix with nonnegative entries are nonnegative. -/
theorem gini_sorted_nonneg {n : ℕ} (m : Fin n → Fin n → ℚ) (d : Direction)
    (hm : ∀ i j, 0 ≤ m i j) : ∀ x ∈ gini_sorted m d, 0 ≤ x := by
  intro x hx
  rw [List.Perm.mem_iff (gini_sorted_perm m d)] at hx
  rw [gini_degree_list] at hx
  obtain ⟨v, _, rfl⟩ := List.mem_map.mp hx
  exact gini_degree_nonneg m d hm v

/-- A partial sum of a nonnegative list is at most the full sum. -/
theorem take_sum_le (l : List ℚ) (hl : ∀ x ∈ l, 0 ≤ x) (k : ℕ) :
    (l.take k).sum ≤ l.sum := by
  conv_rhs => rw [← List.take_append_drop k l]
  rw [List.sum_append]
  have h : 0 ≤ (l.drop k).sum :=
    List.sum_nonneg (fun x hx => hl x (List.drop_subset _ _ hx))
  linarith

/-- Regular-graph value of gini_coefficient: for n nodes of common degree
dv > 0 and n at least 2 the trapezoid integral computes (n + 1) / (2 n). -/
theorem gini_coefficient_regular {n : ℕ} {α : Type} (m : Fin n → Fin n → ℚ) (nrn : α)
    (d : Direction) (dv : ℚ) (hn : 2 ≤ n) (hdv : 0 < dv)
    (hreg : ∀ v, gini_degree m d v = dv) :
    gini_coefficient m nrn d = ((n : ℚ) + 1) / (2 * (n : ℚ)) := by
  obtain ⟨j, rfl⟩ : ∃ j, n = j + 1 := ⟨n - 1, by omega⟩
  have hj : 1 ≤ j := by omega
  have hj0 : (j : ℚ) ≠ 0 := Nat.cast_ne_zero.mpr (by omega)
  have hj1 : (j : ℚ) + 1 ≠ 0 := by positivity
  have hdv' : dv ≠ 0 := ne_of_gt hdv
  have hlist : gini_degree_list m d = List.replicate (j + 1) dv := by
    rw [gini_degree_list, List.map_congr_left (fun v _ => hreg v), List.map_const',
      List.length_finRange]
  have hsort : gini_sorted m d = List.replicate (j + 1) dv := by
    rw [gini_sorted, hlist, insertionSort_le_replicate, List.reverse_replicate]
  rw [gini_coefficient_eq_sum]
  have hsum : ∀ k ∈ Finset.range j,
      ((((k + 1 : ℕ) : ℚ) / (((j + 1 : ℕ) : ℚ) - 1) - ((k : ℕ) : ℚ) / (((j + 1 : ℕ) : ℚ) - 1)) *
        (((gini_sorted m d).take (k + 1)).sum / (gini_degree_list m d).sum +
         ((gini_sorted m d).take (k + 1 + 1)).sum / (gini_degree_list m d).sum) / 2) =
      (2 * (k : ℚ) + 3) / (2 * (j : ℚ) * ((j : ℚ) + 1)) := by
    intro k hk
    rw [Finset.mem_range] at hk
    rw [hsort, hlist, List.take_replicate, List.take_replicate]
    have h1 : min (k + 1) (j + 1) = k + 1 := by omega
    have h2 : min (k + 1 + 1) (j + 1) = k + 1 + 1 := by omega
    rw [h1, h2, List.sum_replicate, List.sum_replicate, List.sum_replicate,
      nsmul_eq_mul, nsmul_eq_mul, nsmul_eq_mul]
    push_cast
    field_simp
    ring
  rw [Finset.sum_congr rfl hsum, ← Finset.sum_div, sum_two_k_three]
  push_cast
  field_simp
  ring

/-- Range bound of gini_coefficient: nonnegative entries and positive total
degree put the trapezoid integral inside [0, 1]. -/
theorem gini_coefficient_range {n : ℕ} {α : Type} (m : Fin n → Fin n → ℚ) (nrn : α)
    (d : Direction) (hm : ∀ i j, 0 ≤ m i j) (hS : 0 < (gini_degree_list m d).sum) :
    0 ≤ gini_coefficient m nrn d ∧ gini_coefficient m nrn d ≤ 1 := by
  cases n with
  | zero =>
    rw [gini_degree_list] at hS
    simp [List.finRange] at hS
  | succ j =>
    have hsortnn : ∀ x ∈ gini_sorted m d, 0 ≤ x := gini_sorted_nonneg m d hm
    have hsum_eq : (gini_sorted m d).sum = (gini_degree_list m d).sum := gini_sorted_sum m d
    have hBf : ∀ k : ℕ, 0 ≤ ((gini_sorted m d).take k).sum / (gini_degree_list m d).sum ∧
        ((gini_sorted m d).take k).sum / (gini_degree_list m d).sum ≤ 1 := by
      intro k
      constructor
      · apply div_nonneg
        · exact List.sum_nonneg (fun x hx => hsortnn x (List.take_subset _ _ hx))
        · exact le_of_lt hS
      · rw [div_le_one hS]
        calc ((gini_sorted m d).take k).sum ≤ (gini_sorted m d).sum :=
              take_sum_le _ hsortnn k
          _ = _ := hsum_eq
    have hdA : ∀ k ∈ Finset.range j,
        (((k + 1 : ℕ) : ℚ) / (((j + 1 : ℕ) : ℚ) - 1) - ((k : ℕ) : ℚ) / (((j + 1 : ℕ) : ℚ) - 1)) =
          1 / (j : ℚ) := by
      intro k hk
      rw [Finset.mem_range] at hk
      have hc : (((j + 1 : ℕ) : ℚ) - 1) = (j : ℚ) := by push_cast; ring
      rw [hc, div_sub_div_same]
      push_cast
      ring_nf
    rw [gini_coefficient_eq_sum]
    constructor
    · apply Finset.sum_nonneg
      intro k hk
      have hjpos : 0 < j := by
        rw [Finset.mem_range] at hk; omega
      rw [hdA k hk]
      have hjq : (0 : ℚ) < (j : ℚ) := by exact_mod_cast hjpos
      have h1 := hBf (k + 1)
      have h2 := hBf (k + 1 + 1)
      have hnum : 0 ≤ ((gini_sorted m d).take (k + 1)).sum / (gini_degree_list m d).sum +
          ((gini_sorted m d).take (k + 1 + 1)).sum / (gini_degree_list m d).sum := by
        linarith [h1.1, h2.1]
      have hfrac : (0 : ℚ) ≤ 1 / (j : ℚ) := by positivity
      have hmul := mul_nonneg hfrac hnum
      linarith
    · have hterm : ∀ k ∈ Finset.range j,
          ((((k + 1 : ℕ) : ℚ) / (((j + 1 : ℕ) : ℚ) - 1) -
            ((k : ℕ) : ℚ) / (((j + 1 : ℕ) : ℚ) - 1)) *
            (((gini_sorted m d).take (k + 1)).sum / (gini_degree_list m d).sum +
             ((gini_sorted m d).take (k + 1 + 1)).sum / (gini_degree_list m d).sum) / 2) ≤
          1 / (j : ℚ) := by
        intro k hk
        have hjpos : 0 < j := by rw [Finset.mem_range] at hk; omega
        have hjq : (0 : ℚ) < (j : ℚ) := by exact_mod_cast hjpos
        rw [hdA k hk]
        have h1 := hBf (k + 1)
        have h2 := hBf (k + 1 + 1)
        have hb : (((gini_sorted m d).take (k + 1)).sum / (gini_degree_list m d).sum +
            ((gini_sorted m d).take (k + 1 + 1)).sum / (gini_degree_list m d).sum) ≤ 2 := by
          linarith [h1.2, h2.2]
        have hfrac : (0 : ℚ) ≤ 1 / (j : ℚ) := by positivity
        have hmul := mul_le_mul_of_nonneg_left hb hfrac
        linarith
      calc (∑ k ∈ Finset.range j,
            ((((k + 1 : ℕ) : ℚ) / (((j + 1 : ℕ) : ℚ) - 1) -
              ((k : ℕ) : ℚ) / (((j + 1 : ℕ) : ℚ) - 1)) *
              (((gini_sorted m d).take (k + 1)).sum / (gini_degree_list m d).sum +
               ((gini_sorted m d).take (k + 1 + 1)).sum / (gini_degree_list m d).sum) / 2)) ≤
          ∑ k ∈ Finset.range j, 1 / (j : ℚ) := Finset.sum_le_sum hterm
        _ = (j : ℚ) * (1 / (j : ℚ)) := by
            rw [Finset.sum_const, Finset.card_range, nsmul_eq_mul]
        _ ≤ 1 := by
            rcases Nat.eq_zero_or_pos j with h0 | hpos
            · subst h0; norm_num
            · have hne : (j : ℚ) ≠ 0 := Nat.cast_ne_zero.mpr (by omega)
              rw [mul_one_div, div_self hne]

/-- Claim C5, counterexample: on the 2-node perfectly regular graph (every node
of degree 1) with direction efferent, gini_coefficient evaluates to 3/4, not to
the claimed value 0: the code integrates the area under the reversed Lorenz
curve without subtracting the diagonal. -/
theorem C5_counterexample : gini_coefficient ex2reg () Direction.efferent ≠ 0 := by
  have hf : List.finRange 2 = [0, 1] := by decide
  have hlist : gini_degree_list ex2reg Direction.efferent = [1, 1] := by
    rw [gini_degree_list, hf]
    simp only [List.map_cons, List.map_nil]
    norm_num [gini_degree, ex2reg, Fin.sum_univ_two]
  have hsort : gini_sorted ex2reg Direction.efferent = [1, 1] := by
    rw [gini_sorted, hlist]
    norm_num [List.insertionSort, List.orderedInsert]
  have hcs : gini_cs ex2reg Direction.efferent = [1 / 2, 1] := by
    rw [gini_cs, hsort, hlist]
    norm_num [cumsum]
  rw [gini_coefficient]
  show np_trapz (linspace01 (gini_cs ex2reg Direction.efferent).length)
      (gini_cs ex2reg Direction.efferent) ≠ 0
  rw [hcs]
  have hr : List.range 2 = [0, 1] := by decide
  norm_num [linspace01, np_trapz, hr]

/-- Claim C5 (amended): gini_coefficient integrates the area under the reversed
Lorenz curve itself, so on a perfectly regular graph (n ≥ 2 nodes, every node
of the same positive degree) it equals (n + 1) / (2 n) — approaching 1/2, not
0 — while for every matrix with nonnegative entries and positive total degree
the trapezoid-rule integral over the rank axis does lie in [0, 1]. -/
theorem gini_coefficient_amended :
    (∀ (n : ℕ) (m : Fin n → Fin n → ℚ) (nrn : Unit) (d : Direction) (dv : ℚ),
      2 ≤ n → 0 < dv → (∀ v, gini_degree m d v = dv) →
      gini_coefficient m nrn d = ((n : ℚ) + 1) / (2 * (n : ℚ))) ∧
    (∀ (n : ℕ) (m : Fin n → Fin n → ℚ) (nrn : Unit) (d : Direction),
      (∀ i j, 0 ≤ m i j) → 0 < (gini_degree_list m d).sum →
      0 ≤ gini_coefficient m nrn d ∧ gini_coefficient m nrn d ≤ 1) :=
  ⟨fun n m nrn d dv hn hdv hreg => gini_coefficient_regular m nrn d dv hn hdv hreg,
   fun n m nrn d hm hS => gini_coefficient_range m nrn d hm hS⟩

/-- Witness for C5 (amended) at the 2-node regular example. -/
theorem gini_coefficient_amended_witness :
    gini_coefficient ex2reg () Direction.efferent = (((2 : ℕ) : ℚ) + 1) / (2 * ((2 : ℕ) : ℚ)) ∧
    gini_coefficient ex2reg () Direction.efferent ≤ 1 := by
  have hreg : ∀ v, gini_degree ex2reg Direction.efferent v = 1 := by
    intro v
    fin_cases v <;> norm_num [gini_degree, ex2reg, Fin.sum_univ_two]
  have hf : List.finRange 2 = [0, 1] := by decide
  have hS : 0 < (gini_degree_list ex2reg Direction.efferent).sum := by
    rw [gini_degree_list, hf]
    simp only [List.map_cons, List.map_nil]
    norm_num [gini_degree, ex2reg, Fin.sum_univ_two]
  refine ⟨gini_coefficient_amended.1 2 ex2reg () Direction.efferent 1 (by norm_num)
    (by norm_num) hreg, ?_⟩
  exact (gini_coefficient_amended.2 2 ex2reg () Direction.efferent
    (fun i j => by dsimp [ex2reg]; split <;> norm_num) hS).2

/-- Claim C10: the required nrn argument of gini_curve, gini_coefficient,
normalized_gini_coefficient and rich_club_curve is never read, so for any two
values of nrn the four outputs coincide (two-run noninterference in nrn). -/
theorem nrn_argument_noninterference {n : ℕ} {α : Type} (M : Fin n → Fin n → ℚ)
    (Mb : Fin n → Fin n → Bool) (d : Direction) (nrn1 nrn2 : α) :
    gini_curve M nrn1 d = gini_curve M nrn2 d ∧
    gini_coefficient M nrn1 d = gini_coefficient M nrn2 d ∧
    normalized_gini_coefficient M nrn1 d = normalized_gini_coefficient M nrn2 d ∧
    rich_club_curve Mb nrn1 d = rich_club_curve Mb nrn2 d :=
  ⟨rfl, rfl, rfl, rfl⟩

/-- Claim C3, counterexample: on the 3-node example with a valid outcome of the
random draws, the column (afferent) marginal is NOT preserved by the efferent
shuffle — column 0 holds 1 stored entry before and 2 after — refuting the claim
that every column's nonzero count is exactly preserved. -/
theorem C3_counterexample :
    valid_sample ex3 ex3_sampler ∧
    colNNZ (generate_degree_based_control ex3 ex3_sampler) 0 ≠ colNNZ ex3 0 := by
  constructor
  · decide
  · decide

/-- Claim C3 (amended): generate_degree_based_control with direction efferent
exactly preserves every ROW's stored-entry count (the out-degree, as the
function's own docstring states), for every matrix and every valid outcome of
the random draws; the roles of rows and columns in the claim are swapped, and
the column (in-degree) marginal is preserved only approximately. -/
theorem generate_degree_based_control_row_counts {n : ℕ} (m : Fin n → Fin n → Bool)
    (sampler : Fin n → List (Fin n)) (h : valid_sample m sampler) (r : Fin n) :
    rowNNZ (generate_degree_based_control m sampler) r = rowNNZ m r := by
  obtain ⟨hlen, hnodup, _⟩ := h r
  have hset : (univ : Finset (Fin n)).filter
      (fun c => generate_degree_based_control m sampler r c = true) =
      (sampler r).toFinset := by
    ext c
    simp [generate_degree_based_control, List.mem_toFinset]
  show ((univ : Finset (Fin n)).filter
    (fun c => generate_degree_based_control m sampler r c = true)).card = rowNNZ m r
  rw [hset, List.toFinset_card_of_nodup hnodup, hlen]

/-- Witness for the amended C3 at the 3-node example, row 0. -/
theorem generate_degree_based_control_row_counts_witness :
    valid_sample ex3 ex3_sampler ∧
    rowNNZ (generate_degree_based_control ex3 ex3_sampler) 0 = rowNNZ ex3 0 :=
  ⟨by decide, generate_degree_based_control_row_counts ex3 ex3_sampler (by decide) 0⟩

/-- np.sign of a negative value. -/
theorem np_sign_of_neg (x : ℚ) (h : x < 0) : np_sign x = -1 := by
  rw [np_sign, if_neg (by linarith), if_pos h]

/-- np.sign of a positive value. -/
theorem np_sign_of_pos (x : ℚ) (h : 0 < x) : np_sign x = 1 := by
  rw [np_sign, if_pos h]

/-- Claim C7, counterexample: with a single source neuron at depth 0 and a
single target neuron at depth 1, compute_bip_matrix gives
sign(src_depth - tgt_depth) = -1, not the claimed sign(tgt_depth - src_depth)
= +1. -/
theorem C7_counterexample :
    compute_bip_matrix (fun _ : Fin 1 => (0 : ℚ)) (fun _ : Fin 1 => (1 : ℚ)) 0 0 ≠
      np_sign ((1 : ℚ) - 0) := by
  have hL : compute_bip_matrix (fun _ : Fin 1 => (0 : ℚ)) (fun _ : Fin 1 => (1 : ℚ)) 0 0 =
      -1 := by
    rw [compute_bip_matrix]
    show np_sign (-((1 : ℚ) - 0)) = -1
    exact np_sign_of_neg _ (by norm_num)
  have hR : np_sign ((1 : ℚ) - 0) = 1 := np_sign_of_pos _ (by norm_num)
  rw [hL, hR]
  norm_num

/-- Claim C7 (amended): compute_bip_matrix[i, j] equals the sign of
(source depth i - target depth j), the opposite orientation of the claim;
and in the 3rd-order extraction the zero depth difference does NOT form its
own bin: with bip_bins = [-1, 0, 1] (two bins, the last closed), a bipolar
value of 0 falls in the second, upper bin together with the positive values
and is excluded from the first bin. -/
theorem compute_bip_matrix_amended {ns nt : ℕ} (src : Fin ns → ℚ) (tgt : Fin nt → ℚ)
    (i : Fin ns) (j : Fin nt) :
    compute_bip_matrix src tgt i j = np_sign (src i - tgt j) ∧
    binSel [-1, 0, 1] 1 (some 0) = true ∧
    binSel [-1, 0, 1] 1 (some 1) = true ∧
    binSel [-1, 0, 1] 0 (some 0) = false := by
  refine ⟨?_, ?_, ?_, ?_⟩
  · rw [compute_bip_matrix]
    show np_sign (-(tgt j - src i)) = np_sign (src i - tgt j)
    congr 1
    ring
  · norm_num [binSel]
  · norm_num [binSel]
  · norm_num [binSel]

/-- Claim C8: for every input of extract_dependent_p_conn and every bin
combination with zero total pairs, the connection count is zero as well (the
selected connected pairs are a subset of the selected pairs) and the returned
probability is exactly 0 — the 0/0 NaN is mapped to 0.0, never propagated. -/
theorem p_conn_zero_bin {D ns nt : ℕ} (adj : Fin ns → Fin nt → Bool)
    (deps : Fin D → Fin ns → Fin nt → Option ℚ) (binsL : Fin D → List ℚ)
    (idx : Fin D → ℕ) (h : count_all deps binsL idx = 0) :
    count_conn adj deps binsL idx = 0 ∧ p_conn adj deps binsL idx = 0 := by
  have hsub : count_conn adj deps binsL idx ≤ count_all deps binsL idx := by
    apply Finset.card_le_card
    intro p hp
    rw [Finset.mem_filter] at hp ⊢
    exact ⟨hp.1, hp.2.1⟩
  constructor
  · omega
  · rw [p_conn, if_pos h]

/-- Witness for C8: a 1x1 adjacency with a NaN covariate entry — the only pair
is excluded from every bin, count_all is 0 and the probability is 0. -/
theorem p_conn_zero_bin_witness :
    count_all (fun _ : Fin 1 => (fun _ _ => none : Fin 1 → Fin 1 → Option ℚ))
      (fun _ => [0, 1]) (fun _ => 0) = 0 ∧
    p_conn (fun _ _ => true)
      (fun _ : Fin 1 => (fun _ _ => none : Fin 1 → Fin 1 → Option ℚ))
      (fun _ => [0, 1]) (fun _ => 0) = 0 :=
  ⟨by decide,
   (p_conn_zero_bin (fun _ _ => true)
     (fun _ : Fin 1 => (fun _ _ => none : Fin 1 → Fin 1 → Option ℚ))
     (fun _ => [0, 1]) (fun _ => 0) (by decide)).2⟩

/-- Summing a pair census over the row chunks of extract_2nd_order recovers the
full census: every row lies in exactly one chunk. -/
theorem chunk_partition {N : ℕ} (N_split : ℕ) (hs : 0 < N_split)
    (P : Fin N × Fin N → Prop) [DecidablePred P] :
    ∑ c ∈ Finset.range N_split,
        ((univ : Finset (Fin N × Fin N)).filter
          (fun p : Fin N × Fin N => in_chunk (chunk_size N N_split) c p.1 ∧ P p)).card =
      ((univ : Finset (Fin N × Fin N)).filter P).card := by
  rcases Nat.eq_zero_or_pos N with hN | hN
  · subst hN
    simp
  · have hq1 : 1 ≤ chunk_size N N_split := by
      rw [chunk_size, Nat.le_div_iff_mul_le hs]
      omega
    have hNq : N ≤ chunk_size N N_split * N_split := by
      rw [chunk_size]
      have hd := Nat.div_add_mod (N + N_split - 1) N_split
      have hm : (N + N_split - 1) % N_split < N_split := Nat.mod_lt _ hs
      rw [mul_comm]
      generalize hgen : N_split * ((N + N_split - 1) / N_split) = P2 at hd ⊢
      omega
    have H : ∀ p ∈ (univ : Finset (Fin N × Fin N)).filter P,
        p.1.val / chunk_size N N_split ∈ Finset.range N_split := by
      intro p _
      rw [Finset.mem_range, Nat.div_lt_iff_lt_mul (by omega : 0 < chunk_size N N_split)]
      calc p.1.val < N := p.1.isLt
        _ ≤ chunk_size N N_split * N_split := hNq
        _ = N_split * chunk_size N N_split := mul_comm _ _
    rw [Finset.card_eq_sum_card_fiberwise H]
    apply Finset.sum_congr rfl
    intro c hc
    congr 1
    ext p
    simp only [Finset.mem_filter, Finset.mem_univ, true_and]
    have hdiv : p.1.val / chunk_size N N_split = c ↔ in_chunk (chunk_size N N_split) c p.1 := by
      have hqpos : 0 < chunk_size N N_split := by omega
      have h1 : c ≤ p.1.val / chunk_size N N_split ↔ c * chunk_size N N_split ≤ p.1.val :=
        Nat.le_div_iff_mul_le hqpos
      have h2 : p.1.val / chunk_size N N_split < c + 1 ↔
          p.1.val < (c + 1) * chunk_size N N_split :=
        Nat.div_lt_iff_lt_mul hqpos
      constructor
      · intro he
        refine ⟨h1.mp (le_of_eq he.symm), h2.mp ?_⟩
        rw [he]
        exact Nat.lt_succ_self c
      · rintro ⟨ha, hb⟩
        exact Nat.le_antisymm (Nat.lt_succ_iff.mp (h2.mpr hb)) (h1.mpr ha)
    tauto

/-- Claim C6: for every adjacency matrix, raw pairwise distance matrix, bin
size, maximum range and split count N_split > 1 (the chunks of
extract_2nd_order always partition the N rows), the chunked extraction
accumulates connection counts and total-pair counts identical to the
non-chunked invocation with the same bin edges, at every bin index. -/
theorem extract_2nd_order_split_eq {N : ℕ} (adj : Fin N → Fin N → Bool)
    (raw : Fin N → Fin N → ℚ) (bin_size max_range : ℚ) (N_split : ℕ)
    (hs : 1 < N_split) (k : ℕ) :
    extract_2nd_order_split_count_conn adj raw (dist_bins bin_size max_range) N_split k =
      extract_2nd_order_count_conn adj raw (dist_bins bin_size max_range) k ∧
    extract_2nd_order_split_count_all raw (dist_bins bin_size max_range) N_split k =
      extract_2nd_order_count_all raw (dist_bins bin_size max_range) k := by
  constructor
  · exact chunk_partition N_split (by omega) _
  · exact chunk_partition N_split (by omega) _

/-- Witness for C6: a 3-neuron example, constant distance 1, bin width 1,
maximal range 2, two chunks, first bin. -/
theorem extract_2nd_order_split_eq_witness :
    (1 < 2) ∧
    extract_2nd_order_split_count_all (fun _ _ => (1 : ℚ) : Fin 3 → Fin 3 → ℚ)
      (dist_bins 1 2) 2 0 =
    extract_2nd_order_count_all (fun _ _ => (1 : ℚ) : Fin 3 → Fin 3 → ℚ)
      (dist_bins 1 2) 0 :=
  ⟨by norm_num,
   (extract_2nd_order_split_eq (fun _ _ => true) (fun _ _ => (1 : ℚ)) 1 2 2
     (by norm_num) 0).2⟩

/-- Claim C2 (code bug): with normalize_with='shuffled' (the default),
normalized_rich_club_curve never returns a normalized curve: for every matrix,
direction, normalize value and outcome of the random draws, the shuffled
control crashes with NameError on the undefined name rr
(degree_distribution.py line 195; the source means res), and the error
propagates with only the observed curve computed. -/
theorem normalized_rich_club_curve_shuffled_errors {n : ℕ} {α : Type}
    (m : Fin n → Fin n → Bool) (nrn : α) (d : Direction) (normalize : String)
    (sqrtQ : ℚ → ℚ) (samplers : ℕ → Fin n → List (Fin n)) :
    normalized_rich_club_curve m nrn d normalize "shuffled" sqrtQ samplers =
      ([Step.observedCurve], Except.error (PyErr.nameError "rr")) := by
  rfl

/-- Claim C9, counterexample: at the 4-node example with the unsupported value
normalize_with='bogus' (and the valid normalize='std'), the call does not fail
with an invalid-argument error: ctrl is never bound and the function crashes
with NameError('ctrl') — after the observed curve was already computed, so the
failure is neither an argument check nor detected eagerly. -/
theorem C9_counterexample :
    normalized_rich_club_curve ex4 () Direction.efferent "std" "bogus" id
        (fun _ _ => []) =
      ([Step.observedCurve], Except.error (PyErr.nameError "ctrl")) ∧
    isInvalidArgError (PyErr.nameError "ctrl") = false := by
  constructor
  · rfl
  · rfl

/-- Claim C9 (amended): an unsupported normalize value (with
normalize_with='analytical') raises the Exception('Unknown normalization: ...')
invalid-argument error, but only after both the observed curve and the
analytical control have been computed — not eagerly; an unsupported
normalize_with value is never checked at all and crashes with the unbound-name
NameError('ctrl') after the observed curve has been computed. -/
theorem normalized_rich_club_curve_errors_amended {n : ℕ} {α : Type}
    (m : Fin n → Fin n → Bool) (nrn : α) (d : Direction) (sqrtQ : ℚ → ℚ)
    (samplers : ℕ → Fin n → List (Fin n)) :
    (∀ normalize : String, normalize ≠ "mean" → normalize ≠ "std" →
      normalized_rich_club_curve m nrn d normalize "analytical" sqrtQ samplers =
        ([Step.observedCurve, Step.analyticalControl],
          Except.error (PyErr.exception (String.append "Unknown normalization: " normalize)))) ∧
    (∀ normalize_with : String, normalize_with ≠ "analytical" →
      normalize_with ≠ "shuffled" →
      normalized_rich_club_curve m nrn d "std" normalize_with sqrtQ samplers =
        ([Step.observedCurve], Except.error (PyErr.nameError "ctrl"))) := by
  constructor
  · intro normalize h1 h2
    simp [normalized_rich_club_curve, nrc_normalize, h1, h2]
  · intro nw h1 h2
    simp [normalized_rich_club_curve, h1, h2]

/-- Witness for the amended C9 at the 4-node example with normalize='bogus'
and normalize_with='analytical'. -/
theorem normalized_rich_club_curve_errors_amended_witness :
    normalized_rich_club_curve ex4 () Direction.efferent "bogus" "analytical" id
        (fun _ _ => []) =
      ([Step.observedCurve, Step.analyticalControl],
        Except.error (PyErr.exception (String.append "Unknown normalization: " "bogus"))) :=
  (normalized_rich_club_curve_errors_amended ex4 () Direction.efferent id
    (fun _ _ => [])).1 "bogus" (by decide) (by decide)
